import Mathlib

/-!
Verification of the vector/list container micro-benchmark
(`src/vector_list/bench.cpp`): a shallow embedding of its creation
policies (`FilledRandom`), operation policies (`Find`, `Insert`, `Erase`,
`Sort`, `RandomSortedInsert`) and the trial runner `bench`, together with
theorems settling the documented behavioural properties.

Modelling conventions.  Every element type of the benchmark's catalog
(`Trivial<N>`, `NonTrivialString`, `NonTrivialArray`) exposes a single
`std::size_t` key field `a`; all comparisons, scans and orderings in the
benchmark read only `a` (the remaining bytes are inert zero-initialised
padding or payload that no policy ever inspects).  Elements are therefore
embedded as a record holding the key.  The three container kinds
(`std::vector`, `std::list`, `std::deque`) are all sequences traversed
front-to-back by every policy under study; a container is embedded as a
`List` of elements, `begin`/`end` iterators as positions `0`/`length`,
`std::find_if` as `List.findIdx`, `insert` before a position as
`List.insertIdx`, and `erase` at a position as `List.eraseIdx` — except
that erasing the `end` position is outside the C++ sequence-container
contract (undefined behaviour), so the `Erase` policy's embedding returns
`Option`, with `none` for a pass that erases `end`.
-/

namespace VectorListBench

/-- An element of the benchmark's type catalog: the comparable key field
`a` (`std::size_t`), the only state any measured policy reads. -/
structure Elem where
  a : Nat
deriving DecidableEq

/-- The key sequence of a container, in iteration order. -/
def keys (c : List Elem) : List Nat := c.map Elem.a

/-- The element ordering used by the benchmark: `operator<` of every
catalog type compares the key field `a` alone; `keyLE` is the
corresponding reflexive order on embedded elements. -/
def keyLE (x y : Elem) : Prop := x.a ≤ y.a

instance : DecidableRel keyLE := fun x y => inferInstanceAs (Decidable (x.a ≤ y.a))

instance : IsTotal Elem keyLE := ⟨fun x y => Nat.le_total x.a y.a⟩

instance : IsTrans Elem keyLE := ⟨fun _ _ _ h1 h2 => Nat.le_trans h1 h2⟩

instance : IsRefl Elem keyLE := ⟨fun x => Nat.le_refl x.a⟩

/-- `static const std::size_t REPEAT = 5;` — the trial repeat count. -/
def REPEAT : Nat := 5

/-- `std::numeric_limits<std::size_t>::max()` for the 64-bit `size_t`
the benchmark is compiled with. -/
def SIZE_T_MAX : Nat := 2 ^ 64 - 1

namespace FilledRandom

/-- The `FilledRandom` creation policy.  Its C++ original keeps a static
per-container-kind cache `std::vector<size_t> v`; on `make(size)` it
regenerates `v` as a shuffle of `iota(size)` whenever `v.size() != size`
(using `std::shuffle(begin(v), end(v), std::mt19937())`, i.e. a freshly
default-seeded generator every time), then fills a new container by
`push_back({val})` for each cached `val`.  The embedding passes the cache
state explicitly and abstracts the (implementation-defined, but fixed and
deterministic — the temporary `std::mt19937()` is always default-seeded)
shuffle as a function argument; results are `(container, new cache)`. -/
def make (shuffle : List Nat → List Nat) (v : List Nat) (size : Nat) :
    List Elem × List Nat :=
  let v2 := if v.length ≠ size then shuffle (List.range size) else v
  (v2.map Elem.mk, v2)

/-- Cache states of `FilledRandom` reachable in a process run: the static
`std::vector<size_t> v` starts empty, and is only rewritten by `make`. -/
inductive Reach (shuffle : List Nat → List Nat) : List Nat → Prop
  | start : Reach shuffle []
  | step (s : List Nat) (size : Nat) : Reach shuffle s →
      Reach shuffle (make shuffle s size).2

end FilledRandom

namespace Find

/-- The `Find` operation policy: for each `i < size`, a linear scan
`std::find_if(begin(c), end(c), [&](v){ return v.a == i; })` whose result
is discarded; the container is never written. -/
def run (c : List Elem) (size : Nat) : List Elem :=
  (List.range size).foldl
    (fun c2 i =>
      let _it := c2.findIdx fun v => v.a == i
      c2) c

end Find

namespace Insert

/-- The `Insert` operation policy: for each `i < 1000`, scan for the first
element with key `i` (`end` when absent, i.e. position `length`) and
`insert` a new element with key `size + i` before that position. -/
def run (c : List Elem) (size : Nat) : List Elem :=
  (List.range 1000).foldl
    (fun c2 i =>
      let it := c2.findIdx fun v => v.a == i
      c2.insertIdx it (Elem.mk (size + i))) c

end Insert

namespace Erase

/-- One pass of the `Erase` policy at key `i`:
`c.erase(std::find_if(begin(c), end(c), [&](v){ return v.a == i; }))`.
When the scan fails, the C++ passes the `end` iterator to `erase`, which
the sequence-container contract leaves undefined; that pass is embedded
as `none`. -/
def pass (c : List Elem) (i : Nat) : Option (List Elem) :=
  let it := c.findIdx fun v => v.a == i
  if it < c.length then some (c.eraseIdx it) else none

/-- The `Erase` operation policy: 1000 scan-then-erase passes, for keys
`i < 1000` in order (the `size` argument is unused by the C++ loop). -/
def run (c : List Elem) (_size : Nat) : Option (List Elem) :=
  (List.range 1000).foldl (fun oc i => oc.bind (fun c2 => pass c2 i)) (some c)

end Erase

namespace SortPolicy

/-- The `Sort` operation policy (named `SortPolicy` here because `Sort`
is reserved in Lean): `std::sort(c.begin(), c.end())` for the
contiguous containers and `c.sort()` for `std::list`, both ordering
ascending by `operator<`, i.e. by the key field `a`.  At the key
granularity of the embedding the sorted rearrangement of a sequence is
unique (`keyLE` is total and antisymmetric on embedded elements), so
every conforming C++ sort denotes the same function; it is embedded as
`List.insertionSort keyLE`. -/
def run (c : List Elem) (_size : Nat) : List Elem :=
  List.insertionSort keyLE c

end SortPolicy

namespace RandomSortedInsert

/-- A `std::uniform_int_distribution<T>(lo, hi)`: by its library contract
it produces integers of the closed range `[lo, hi]`, each with equal
probability. -/
structure UniformIntDistribution where
  lo : Nat
  hi : Nat

/-- Probability of drawing the value `v` from a uniform integer
distribution: `1 / (hi - lo + 1)` inside `[lo, hi]` and `0` outside. -/
def UniformIntDistribution.pmf (d : UniformIntDistribution) (v : Nat) : ℚ :=
  if d.lo ≤ v ∧ v ≤ d.hi then (((d.hi - d.lo + 1 : Nat) : ℚ))⁻¹ else 0

/-- The policy's static distribution:
`std::uniform_int_distribution<std::size_t>
  distribution(0, std::numeric_limits<std::size_t>::max() - 1);`. -/
def distribution : UniformIntDistribution :=
  { lo := 0, hi := SIZE_T_MAX - 1 }

/-- The `RandomSortedInsert` operation policy: `size` iterations, each
drawing `val = distribution(generator)` from the static `std::mt19937`
and inserting `{val}` before the first element with key `>= val`.  The
successive outputs of the stateful generator/distribution pair are
abstracted as the stream `draws` (iteration `i` uses `draws i`). -/
def run (draws : Nat → Nat) (c : List Elem) (size : Nat) : List Elem :=
  (List.range size).foldl
    (fun c2 i =>
      let val := draws i
      c2.insertIdx (c2.findIdx fun v => decide (v.a ≥ val)) (Elem.mk val)) c

end RandomSortedInsert

/-- One emitted sample of the trial runner `bench` for one size, as the
source computes it.  `ticks i` is the elapsed clock-tick count measured
by repeat `i` (timing itself is an oracle of the embedding), `unitDiv`
the number of clock ticks per declared duration unit, so
`duration_cast<DurationUnit>(d).count()` is `d / unitDiv`.  `accInit`
models the starting value of the accumulator `Clock::duration duration;`
— which the source default-initialises, leaving its tick count
indeterminate, so it is an explicit parameter rather than `0`.  The
emitted value is `duration_cast<DurationUnit>(duration).count() / REPEAT`. -/
def benchSample (accInit : Nat) (ticks : Nat → Nat) (unitDiv : Nat) : Nat :=
  ((List.range REPEAT).foldl (fun d i => d + ticks i) accInit) / unitDiv / REPEAT

/-- The emitted sample as the specification words it: accumulate the five
elapsed times starting from a zero total, divide the total by the repeat
count, then convert to the declared duration unit as an integral count. -/
def benchSampleSpec (ticks : Nat → Nat) (unitDiv : Nat) : Nat :=
  ((List.range REPEAT).foldl (fun d i => d + ticks i) 0) / REPEAT / unitDiv

/-! ### Theorems -/

theorem find_foldl_discard (l : List Nat) : ∀ c : List Elem,
    l.foldl (fun c2 i => (let _it := c2.findIdx fun v => v.a == i; c2)) c = c := by
  induction l with
  | nil => intro c; rfl
  | cons i l ih => intro c; exact ih c

/-- C9: the `Find` policy performs its `size` linear scans, discards every
result, and leaves the container unchanged: same length, same element
sequence. -/
theorem find_leaves_container_unchanged (c : List Elem) (size : Nat) :
    Find.run c size = c :=
  find_foldl_discard (List.range size) c

/-- C2 (code bug): the trial runner's accumulator `Clock::duration
duration;` is default-initialised, so its starting tick count is
indeterminate rather than zero.  With an indeterminate start of 5000
ticks, five repeats each measuring 0 ticks and 1000 ticks per unit, the
source emits 1 while the specified zero-started computation emits 0; with
a zero start the source's convert-then-divide agrees with the
specification's divide-then-convert for every measurement. -/
theorem bench_accumulator_not_zero_initialized :
    benchSample 5000 (fun _ => 0) 1000 = 1 ∧
      benchSampleSpec (fun _ => 0) 1000 = 0 ∧
      ∀ (ticks : Nat → Nat) (unitDiv : Nat),
        benchSample 0 ticks unitDiv = benchSampleSpec ticks unitDiv := by
  refine ⟨by decide, by decide, fun ticks unitDiv => ?_⟩
  show _ / unitDiv / REPEAT = _ / REPEAT / unitDiv
  rw [Nat.div_div_eq_div_mul, Nat.div_div_eq_div_mul, Nat.mul_comm]

/-- C8 (counterexample): the drawn key is not uniform over the full
64-bit range: the maximum `size_t` value has probability zero, because
the source constructs the distribution with upper bound `max() - 1`. -/
theorem distribution_excludes_max_value :
    RandomSortedInsert.distribution.pmf SIZE_T_MAX = 0 := by
  have h : ¬(RandomSortedInsert.distribution.lo ≤ SIZE_T_MAX ∧
      SIZE_T_MAX ≤ RandomSortedInsert.distribution.hi) := by decide
  simp only [RandomSortedInsert.UniformIntDistribution.pmf, if_neg h]

/-- C8 (amended): each of the `size` iterations draws its key uniformly
from `[0, 2^64 - 2]` — every 64-bit value except the maximum is a
possible draw, each with probability `1 / (2^64 - 1)`. -/
theorem distribution_uniform_below_max (v : Nat) :
    RandomSortedInsert.distribution.pmf v =
      if v ≤ SIZE_T_MAX - 1 then ((SIZE_T_MAX : Nat) : ℚ)⁻¹ else 0 := by
  have h : (SIZE_T_MAX - 1 - 0 + 1 : Nat) = SIZE_T_MAX := by decide
  simp only [RandomSortedInsert.UniformIntDistribution.pmf,
    RandomSortedInsert.distribution, h, Nat.zero_le, true_and]

theorem insert_foldl_perm (size : Nat) :
    ∀ (is : List Nat) (c : List Elem),
      List.Perm
        (is.foldl
          (fun c2 i =>
            c2.insertIdx (c2.findIdx fun v => v.a == i) (Elem.mk (size + i))) c)
        ((is.map fun i => Elem.mk (size + i)) ++ c) := by
  intro is
  induction is with
  | nil => intro c; simp
  | cons i is ih =>
    intro c
    have hstep :
        List.Perm
          (c.insertIdx (c.findIdx fun v => v.a == i) (Elem.mk (size + i)))
          (Elem.mk (size + i) :: c) :=
      List.perm_insertIdx _ _ (List.findIdx_le_length _)
    refine List.Perm.trans (ih _) (List.Perm.trans (hstep.append_left _) ?_)
    simp only [List.map_cons, List.cons_append]
    exact List.perm_middle

/-- C5: `Insert` on a container of `size` elements performs its 1000
scan-then-insert passes and leaves exactly `size + 1000` elements, the
1000 new elements bearing keys `size + i` for `i ∈ [0, 1000)` (multiset
of keys grows by exactly those keys). -/
theorem insert_adds_1000_keyed_elements (c : List Elem) (size : Nat)
    (h : c.length = size) :
    (Insert.run c size).length = size + 1000 ∧
      (↑(keys (Insert.run c size)) : Multiset Nat) =
        ↑(keys c) + ↑((List.range 1000).map fun i => size + i) := by
  have hp : List.Perm (Insert.run c size)
      (((List.range 1000).map fun i => Elem.mk (size + i)) ++ c) :=
    insert_foldl_perm size (List.range 1000) c
  constructor
  · have := hp.length_eq
    simp only [List.length_append, List.length_map, List.length_range] at this
    omega
  · have hk : List.Perm (keys (Insert.run c size))
        (((List.range 1000).map fun i => size + i) ++ keys c) := by
      simpa [keys, List.map_map, Function.comp] using hp.map Elem.a
    have h1 : (↑(keys (Insert.run c size)) : Multiset Nat) =
        ↑(((List.range 1000).map fun i => size + i) ++ keys c) :=
      Multiset.coe_eq_coe.mpr hk
    rw [h1]
    simp [add_comm]

/-- C5 (witness): `Insert` on the empty container with `size = 0`. -/
theorem insert_adds_1000_keyed_elements_witness :
    (Insert.run [] 0).length = 0 + 1000 ∧
      (↑(keys (Insert.run [] 0)) : Multiset Nat) =
        ↑(keys []) + ↑((List.range 1000).map fun i => 0 + i) :=
  insert_adds_1000_keyed_elements [] 0 rfl

theorem erase_pass_found (c : List Elem) (i : Nat) (h : ∃ e ∈ c, e.a = i) :
    ∃ c2, Erase.pass c i = some c2 ∧ c2.length + 1 = c.length ∧
      ∀ j, j ≠ i → (∃ e ∈ c, e.a = j) → ∃ e ∈ c2, e.a = j := by
  obtain ⟨e, he, hea⟩ := h
  have hfound : ∃ x ∈ c, (fun v => v.a == i) x = true := ⟨e, he, by simp [hea]⟩
  have hlt : c.findIdx (fun v => v.a == i) < c.length :=
    List.findIdx_lt_length_of_exists hfound
  refine ⟨c.eraseIdx (c.findIdx fun v => v.a == i), ?_, ?_, ?_⟩
  · simp [Erase.pass, hlt]
  · rw [List.length_eraseIdx_of_lt hlt]
    omega
  · intro j hj he2ex
    obtain ⟨e2, he2, he2a⟩ := he2ex
    obtain ⟨m, hm, hme⟩ := List.mem_iff_getElem.mp he2
    have hkey : (c.get ⟨c.findIdx fun v => v.a == i, hlt⟩).a = i := by
      have h2 := @List.findIdx_getElem _ (fun v => v.a == i) c hlt
      simpa [List.get_eq_getElem] using h2
    have hne : m ≠ c.findIdx (fun v => v.a == i) := by
      intro heq
      subst heq
      simp only [List.get_eq_getElem] at hkey
      rw [hme] at hkey
      exact hj (he2a.symm.trans hkey)
    refine ⟨e2, ?_, he2a⟩
    exact List.mem_eraseIdx_iff_getElem?.mpr
      ⟨m, hne, by rw [List.getElem?_eq_getElem hm, hme]⟩

theorem erase_foldl_ok :
    ∀ (is : List Nat) (c : List Elem), is.Nodup →
      (∀ j ∈ is, ∃ e ∈ c, e.a = j) →
      ∃ c2,
        is.foldl (fun oc i => oc.bind fun c3 => Erase.pass c3 i) (some c) =
            some c2 ∧
          c2.length + is.length = c.length := by
  intro is
  induction is with
  | nil => intro c _ _; exact ⟨c, rfl, rfl⟩
  | cons i is ih =>
    intro c hnd hkeys
    obtain ⟨c1, hpass, hlen1, hkeep⟩ :=
      erase_pass_found c i (hkeys i (List.mem_cons_self i is))
    have hnd' : is.Nodup := (List.nodup_cons.mp hnd).2
    have hni : i ∉ is := (List.nodup_cons.mp hnd).1
    have hkeys' : ∀ j ∈ is, ∃ e ∈ c1, e.a = j := fun j hj =>
      hkeep j (fun hji => hni (hji ▸ hj)) (hkeys j (List.mem_cons_of_mem i hj))
    obtain ⟨c2, hrun, hlen2⟩ := ih c1 hnd' hkeys'
    refine ⟨c2, ?_, ?_⟩
    · simpa [hpass] using hrun
    · simp only [List.length_cons]
      omega

/-- C1 (amended): a pass of `Erase` whose scan finds no match passes the
`end` iterator to `erase`, which is undefined behaviour, not a no-op;
but whenever every key `i ∈ [0, 1000)` is present in the container — as
in every benchmark scenario that runs `Erase`, since they fill with a
permutation of `{0, …, size-1}` for `size ≥ 10000` — all 1000 scans find
a match, no pass reaches `end`, and `Erase` removes exactly 1000
elements. -/
theorem erase_removes_exactly_1000_when_all_keys_present (c : List Elem)
    (size : Nat) (h : ∀ j < 1000, ∃ e ∈ c, e.a = j) :
    ∃ c2, Erase.run c size = some c2 ∧ c2.length + 1000 = c.length := by
  obtain ⟨c2, hrun, hlen⟩ :=
    erase_foldl_ok (List.range 1000) c (List.nodup_range 1000)
      (fun j hj => h j (List.mem_range.mp hj))
  exact ⟨c2, hrun, by simpa using hlen⟩

/-- C1 (amended, witness): `Erase` on a container holding exactly the
keys `0, …, 999` empties it without ever erasing `end`. -/
theorem erase_removes_exactly_1000_witness :
    ∃ c2, Erase.run ((List.range 1000).map Elem.mk) 10000 = some c2 ∧
      c2.length + 1000 = ((List.range 1000).map Elem.mk).length :=
  erase_removes_exactly_1000_when_all_keys_present _ 10000
    (fun j hj => ⟨Elem.mk j, List.mem_map.mpr ⟨j, List.mem_range.mpr hj, rfl⟩, rfl⟩)

/-- C6: `Sort` is idempotent — sorting an already key-sorted container
returns the identical sequence — and on any container it produces a
non-decreasing key sequence that is a permutation (same length, same
multiset of keys) of the input. -/
theorem sort_idempotent_and_permutation (c : List Elem) (size : Nat) :
    (List.Sorted keyLE c → SortPolicy.run c size = c) ∧
      List.Sorted (· ≤ ·) (keys (SortPolicy.run c size)) ∧
      (SortPolicy.run c size).length = c.length ∧
      (↑(keys (SortPolicy.run c size)) : Multiset Nat) = ↑(keys c) := by
  refine ⟨fun h => h.insertionSort_eq, ?_, ?_, ?_⟩
  · exact List.pairwise_map.mpr (List.sorted_insertionSort keyLE c)
  · exact List.length_insertionSort keyLE c
  · exact Multiset.coe_eq_coe.mpr ((List.perm_insertionSort keyLE c).map Elem.a)

/-- C6 (witness): sorting the already-sorted two-element container is the
identity on it. -/
theorem sort_idempotent_witness :
    SortPolicy.run [Elem.mk 0, Elem.mk 1] 2 = [Elem.mk 0, Elem.mk 1] :=
  (sort_idempotent_and_permutation [Elem.mk 0, Elem.mk 1] 2).1 (by decide)

theorem insertIdx_findIdx_eq_orderedInsert (val : Nat) :
    ∀ c : List Elem,
      c.insertIdx (c.findIdx fun v => decide (v.a ≥ val)) (Elem.mk val) =
        c.orderedInsert keyLE (Elem.mk val) := by
  intro c
  induction c with
  | nil => rfl
  | cons b t ih =>
    by_cases h : val ≤ b.a
    · have hb : (fun v => decide (v.a ≥ val)) b = true := by
        simpa [ge_iff_le] using h
      simp [List.findIdx_cons, hb, List.orderedInsert, keyLE, h]
    · have hb : (fun v => decide (v.a ≥ val)) b = false := by
        simpa [ge_iff_le] using h
      simp [List.findIdx_cons, hb, List.orderedInsert, keyLE, h,
        List.insertIdx_succ_cons, ih]

theorem rsi_foldl (draws : Nat → Nat) :
    ∀ (is : List Nat) (c : List Elem), List.Sorted keyLE c →
      (is.foldl
            (fun c2 i =>
              c2.insertIdx (c2.findIdx fun v => decide (v.a ≥ draws i))
                (Elem.mk (draws i))) c).length = c.length + is.length ∧
        List.Sorted keyLE
          (is.foldl
            (fun c2 i =>
              c2.insertIdx (c2.findIdx fun v => decide (v.a ≥ draws i))
                (Elem.mk (draws i))) c) := by
  intro is
  induction is with
  | nil => intro c h; exact ⟨rfl, h⟩
  | cons i is ih =>
    intro c h
    have hstep :
        c.insertIdx (c.findIdx fun v => decide (v.a ≥ draws i))
            (Elem.mk (draws i)) =
          c.orderedInsert keyLE (Elem.mk (draws i)) :=
      insertIdx_findIdx_eq_orderedInsert (draws i) c
    have hsorted : List.Sorted keyLE (c.orderedInsert keyLE (Elem.mk (draws i))) :=
      h.orderedInsert (Elem.mk (draws i)) c
    have hlen : (c.orderedInsert keyLE (Elem.mk (draws i))).length = c.length + 1 :=
      List.orderedInsert_length keyLE c (Elem.mk (draws i))
    simp only [List.foldl_cons]
    rw [hstep]
    obtain ⟨h1, h2⟩ := ih (c.orderedInsert keyLE (Elem.mk (draws i))) hsorted
    refine ⟨?_, h2⟩
    rw [h1, hlen]
    simp only [List.length_cons]
    omega

/-- C7: `RandomSortedInsert` run to completion on an initially empty
container — whatever values the generator produces — yields exactly
`size` elements whose key sequence is non-decreasing, because every
iteration inserts its drawn value before the first element with key
`>=` it. -/
theorem randomSortedInsert_sorted_of_empty (draws : Nat → Nat) (size : Nat) :
    (RandomSortedInsert.run draws [] size).length = size ∧
      List.Sorted (· ≤ ·) (keys (RandomSortedInsert.run draws [] size)) := by
  have h := rsi_foldl draws (List.range size) [] List.sorted_nil
  exact ⟨by simpa using h.1, List.pairwise_map.mpr h.2⟩

theorem map_a_map_mk (l : List Nat) : (l.map Elem.mk).map Elem.a = l := by
  induction l with
  | nil => rfl
  | cons x t ih => simp [ih]

theorem keys_make_fst (shuffle : List Nat → List Nat) (s : List Nat) (size : Nat) :
    keys (FilledRandom.make shuffle s size).1 = (FilledRandom.make shuffle s size).2 := by
  simp only [FilledRandom.make, keys]
  exact map_a_map_mk _

theorem reach_perm {shuffle : List Nat → List Nat}
    (hs : ∀ l, List.Perm (shuffle l) l) :
    ∀ {s : List Nat}, FilledRandom.Reach shuffle s → List.Perm s (List.range s.length) := by
  intro s h
  induction h with
  | start => simp
  | step s' size _ ih =>
    show List.Perm (FilledRandom.make shuffle s' size).2 _
    simp only [FilledRandom.make]
    by_cases hl : s'.length ≠ size
    · simp only [if_pos hl]
      have hp := hs (List.range size)
      have hlen : (shuffle (List.range size)).length = size := by
        simpa using hp.length_eq
      rw [hlen]
      exact hp
    · simp only [if_neg hl]
      exact ih

theorem make_fst_of_ne (shuffle : List Nat → List Nat) (s : List Nat) (size : Nat)
    (h : s.length ≠ size) :
    (FilledRandom.make shuffle s size).1 = (shuffle (List.range size)).map Elem.mk := by
  simp only [FilledRandom.make, if_pos h]

theorem make_snd_length {shuffle : List Nat → List Nat}
    (hs : ∀ l, List.Perm (shuffle l) l) (s : List Nat) (size : Nat) :
    ((FilledRandom.make shuffle s size).2).length = size := by
  simp only [FilledRandom.make]
  split_ifs with h
  · simpa using (hs (List.range size)).length_eq
  · omega

theorem make_snd_perm {shuffle : List Nat → List Nat}
    (hs : ∀ l, List.Perm (shuffle l) l) {s : List Nat}
    (hr : FilledRandom.Reach shuffle s) (size : Nat) :
    List.Perm (FilledRandom.make shuffle s size).2 (List.range size) := by
  simp only [FilledRandom.make]
  by_cases hl : s.length ≠ size
  · simp only [if_pos hl]
    exact hs (List.range size)
  · simp only [if_neg hl]
    push_neg at hl
    exact hl ▸ reach_perm hs hr

/-- C4: for every reachable cache state, `FilledRandom.make size` returns
a container of exactly `size` elements whose keys are a permutation of
`{0, …, size-1}`: no duplicate and no missing value, on every call (the
standard guarantees only that `std::shuffle` permutes its range, so the
shuffle is abstracted by that property). -/
theorem filledRandom_keys_exactly_range (shuffle : List Nat → List Nat)
    (hs : ∀ l, List.Perm (shuffle l) l) (s : List Nat)
    (hr : FilledRandom.Reach shuffle s) (size : Nat) :
    List.Perm (keys (FilledRandom.make shuffle s size).1) (List.range size) ∧
      (FilledRandom.make shuffle s size).1.length = size ∧
      (keys (FilledRandom.make shuffle s size).1).Nodup ∧
      ∀ k, k ∈ keys (FilledRandom.make shuffle s size).1 ↔ k < size := by
  have hp : List.Perm (keys (FilledRandom.make shuffle s size).1) (List.range size) := by
    rw [keys_make_fst]
    exact make_snd_perm hs hr size
  refine ⟨hp, ?_, ?_, ?_⟩
  · have h1 : (keys (FilledRandom.make shuffle s size).1).length =
        (FilledRandom.make shuffle s size).1.length := List.length_map _ _
    have h2 := hp.length_eq
    simp only [List.length_range] at h2
    rw [← h1, h2]
  · exact hp.nodup_iff.mpr (List.nodup_range size)
  · intro k
    rw [hp.mem_iff, List.mem_range]

/-- C4 (witness): a concrete permuting shuffle (`List.reverse`), the
initial cache and `size = 3`. -/
theorem filledRandom_keys_witness :
    List.Perm (keys (FilledRandom.make List.reverse [] 3).1) (List.range 3) ∧
      (FilledRandom.make List.reverse [] 3).1.length = 3 ∧
      (keys (FilledRandom.make List.reverse [] 3).1).Nodup ∧
      ∀ k, k ∈ keys (FilledRandom.make List.reverse [] 3).1 ↔ k < 3 :=
  filledRandom_keys_exactly_range List.reverse (fun l => l.reverse_perm) []
    FilledRandom.Reach.start 3

/-- C3: calling `FilledRandom.make` twice in a row with the same size
returns element-for-element identical containers (the cached permutation
is reused), while requesting size 100 and then size 200 regenerates the
cache: the 200-element result equals the one computed from a pristine
cache — independent of the previous 100-element permutation — and is a
fresh shuffle of `{0, …, 199}`. -/
theorem filledRandom_cache_reuse_and_regeneration (shuffle : List Nat → List Nat)
    (hs : ∀ l, List.Perm (shuffle l) l) :
    (∀ (s : List Nat) (size : Nat),
        (FilledRandom.make shuffle (FilledRandom.make shuffle s size).2 size).1 =
          (FilledRandom.make shuffle s size).1) ∧
      ∀ s : List Nat,
        (FilledRandom.make shuffle (FilledRandom.make shuffle s 100).2 200).1 =
            (FilledRandom.make shuffle [] 200).1 ∧
          List.Perm
            (keys (FilledRandom.make shuffle (FilledRandom.make shuffle s 100).2 200).1)
            (List.range 200) := by
  constructor
  · intro s size
    simp only [FilledRandom.make]
    split_ifs <;> rfl
  · intro s
    have hlen : ((FilledRandom.make shuffle s 100).2).length = 100 :=
      make_snd_length hs s 100
    have hne : ((FilledRandom.make shuffle s 100).2).length ≠ 200 := by omega
    have hre : (FilledRandom.make shuffle (FilledRandom.make shuffle s 100).2 200).1 =
        (shuffle (List.range 200)).map Elem.mk :=
      make_fst_of_ne shuffle _ 200 hne
    refine ⟨?_, ?_⟩
    · rw [hre, make_fst_of_ne shuffle [] 200 (by simp)]
    · rw [hre]
      rw [show keys ((shuffle (List.range 200)).map Elem.mk) =
          shuffle (List.range 200) from map_a_map_mk _]
      exact hs (List.range 200)

/-- C3 (witness): cache reuse at size 3 from the cache state `[5, 7]`,
and regeneration at size 200 after a call at size 100, for the concrete
permuting shuffle `List.reverse`. -/
theorem filledRandom_cache_witness :
    (FilledRandom.make List.reverse
          (FilledRandom.make List.reverse [5, 7] 3).2 3).1 =
        (FilledRandom.make List.reverse [5, 7] 3).1 ∧
      List.Perm
        (keys (FilledRandom.make List.reverse
          (FilledRandom.make List.reverse [] 100).2 200).1)
        (List.range 200) :=
  ⟨(filledRandom_cache_reuse_and_regeneration List.reverse
      (fun l => l.reverse_perm)).1 [5, 7] 3,
    ((filledRandom_cache_reuse_and_regeneration List.reverse
      (fun l => l.reverse_perm)).2 []).2⟩

/-- C10: the regenerated permutation is a pure, deterministic function of
the requested size — `std::shuffle` is always run on `iota(size)` with a
freshly default-seeded `std::mt19937`, so any two regenerations at the
same size agree regardless of the prior cache (hence across process
runs of the same binary), and requesting size 100, then 200, then 100
from the initial empty cache reproduces the original 100-element
order. -/
theorem filledRandom_deterministic_pure_of_size (shuffle : List Nat → List Nat)
    (hs : ∀ l, List.Perm (shuffle l) l) :
    (∀ (s : List Nat) (size : Nat), s.length ≠ size →
        (FilledRandom.make shuffle s size).1 =
          (shuffle (List.range size)).map Elem.mk) ∧
      (∀ (s s' : List Nat) (size : Nat), s.length ≠ size → s'.length ≠ size →
        (FilledRandom.make shuffle s size).1 = (FilledRandom.make shuffle s' size).1) ∧
      (FilledRandom.make shuffle
            (FilledRandom.make shuffle (FilledRandom.make shuffle [] 100).2 200).2 100).1 =
        (FilledRandom.make shuffle [] 100).1 := by
  have hclosed : ∀ (s : List Nat) (size : Nat), s.length ≠ size →
      (FilledRandom.make shuffle s size).1 =
        (shuffle (List.range size)).map Elem.mk := by
    intro s size h
    simp only [FilledRandom.make, if_pos h]
  refine ⟨hclosed, fun s s' size h h' => (hclosed s size h).trans (hclosed s' size h').symm, ?_⟩
  have hl2 : ((FilledRandom.make shuffle (FilledRandom.make shuffle [] 100).2 200).2).length
      = 200 := make_snd_length hs _ 200
  have hne2 : ((FilledRandom.make shuffle
      (FilledRandom.make shuffle [] 100).2 200).2).length ≠ 100 := by omega
  rw [hclosed _ 100 hne2, hclosed [] 100 (by simp)]

/-- C10 (witness): purity at a concrete cache and the 100/200/100 round
trip, for the concrete permuting shuffle `List.reverse`. -/
theorem filledRandom_pure_witness :
    (FilledRandom.make List.reverse [9] 2).1 =
        (List.reverse (List.range 2)).map Elem.mk ∧
      (FilledRandom.make List.reverse
            (FilledRandom.make List.reverse
              (FilledRandom.make List.reverse [] 100).2 200).2 100).1 =
        (FilledRandom.make List.reverse [] 100).1 :=
  ⟨(filledRandom_deterministic_pure_of_size List.reverse
      (fun l => l.reverse_perm)).1 [9] 2 (by decide),
    (filledRandom_deterministic_pure_of_size List.reverse
      (fun l => l.reverse_perm)).2.2⟩

set_option maxRecDepth 10000 in
/-- C1 (counterexample): on a container holding no element with key 0,
the very first `Erase` pass hands the failed scan's `end` iterator to
`erase`, which is undefined behaviour (modelled `none`), not a no-op. -/
theorem erase_faults_on_missing_key : Erase.run [] 0 = none := by decide

end VectorListBench
